import Mathlib

/-!
Verification of the retrieval-pipeline core of the AI-Quest-IITB-Hackathon
repository.  The Python functions named in the claims are shallowly embedded
below: text is `List Char`, Python ints are `Nat`/`Int` as appropriate,
fallible code returns `Except`/`Option`, and the unbounded `while` loop of
`_split_text_into_chunks` is modelled with explicit fuel so that both its
terminating and non-terminating behaviours are expressible.
-/

namespace RagSpec

/-! ## Python primitives -/

/-- Model of a Python runtime error relevant to the chunkers. -/
inductive PyError where
  | valueError (msg : String)
deriving DecidableEq, Repr

/-- Clamp an integer index the way Python slicing does: a negative index
counts from the end (bottoming out at 0), a too-large index is clamped to
the length. -/
def pyClamp (len : Nat) (i : Int) : Nat :=
  if i < 0 then ((len : Int) + i).toNat else min i.toNat len

/-- Python slice `l[a:b]`: the elements at positions `pyClamp a ≤ p < pyClamp b`. -/
def pySlice {α : Type} (l : List α) (a b : Int) : List α :=
  (l.take (pyClamp l.length b)).drop (pyClamp l.length a)

/-- Python `str.split()` with no argument: split on runs of whitespace,
discarding empty pieces.  The text is a list of characters and each word is
returned as a list of characters. -/
def pyWords (l : List Char) : List (List Char) :=
  (l.foldr
    (fun c acc =>
      if c.isWhitespace then [] :: acc
      else
        match acc with
        | [] => [[c]]
        | w :: ws => (c :: w) :: ws)
    []).filter (fun w => w ≠ [])

/-- Python `' '.join(words)`. -/
def joinWords (ws : List (List Char)) : List Char :=
  List.intercalate [' '] ws

/-- Python `range(0, stop, step)` for an arbitrary integer `step`
(`step = 0` raises and is excluded by the callers below): for positive
`step` the values `0, step, 2·step, …` below `stop` — there are
`⌈stop/step⌉` of them — and the empty range for negative `step`. -/
def pyRange (stop : Nat) (step : Int) : List Nat :=
  if step ≤ 0 then []
  else (List.range ((stop + step.toNat - 1) / step.toNat)).map (fun k => k * step.toNat)

/-- Python `l[:n]` for an arbitrary integer `n`. -/
def pyTruncate {α : Type} (l : List α) (n : Int) : List α :=
  l.take (pyClamp l.length n)

/-! ## Window machinery

`windowStarts len step start` is the list of loop-counter values taken by a
loop that starts at `start` and advances by `step` while the counter is
below `len` (closed form: `⌈(len−start)/step⌉` values); `windowsFrom`
produces the corresponding slices `l[i : i+size]`. -/

def windowStarts (len step start : Nat) : List Nat :=
  (List.range ((len - start + step - 1) / step)).map (fun k => start + k * step)

def windowsFrom {α : Type} (l : List α) (size step start : Nat) : List (List α) :=
  (windowStarts l.length step start).map (fun i => (l.drop i).take size)

/-- Drop the first `overlap` elements of every chunk and concatenate. -/
def dropJoin {α : Type} (overlap : Nat) (cs : List (List α)) : List α :=
  (cs.map (List.drop overlap)).flatten

/-- Reconstruction of a text from overlapping chunks: the first chunk in
full, followed by the non-overlapping remainder of every later chunk. -/
def reconstruct {α : Type} (overlap : Nat) : List (List α) → List α
  | [] => []
  | c :: cs => c ++ dropJoin overlap cs

/-! ## `GrokPineconeRAG.chunk_text` (src/ml/scrape.py)

```python
def chunk_text(self, text, chunk_size=500, overlap=50):
    chunks = []
    words = text.split()
    for i in range(0, len(words), chunk_size - overlap):
        chunk = ' '.join(words[i:i + chunk_size])
        chunks.append(chunk)
    return chunks
```

`range` raises `ValueError` when its step `chunk_size - overlap` is zero,
and yields nothing when the step is negative. -/

def chunk_text (text : List Char) (chunk_size : Nat := 500) (overlap : Nat := 50) :
    Except PyError (List (List Char)) :=
  let words := pyWords text
  let step : Int := (chunk_size : Int) - (overlap : Int)
  if step = 0 then Except.error (PyError.valueError "range() arg 3 must not be zero")
  else Except.ok ((pyRange words.length step).map
    (fun i => joinWords ((words.drop i).take chunk_size)))

/-! ## `_split_text_into_chunks` (src/ml/github_integration/views.py)

```python
def _split_text_into_chunks(self, text, chunk_size=500, overlap=100):
    chunks = []
    start = 0
    while start < len(text):
        chunks.append(text[start:start+chunk_size])
        start += chunk_size - overlap
    return chunks
```

The loop is modelled with explicit fuel: `splitLoop` returns `none` exactly
when the Python loop fails to finish within the given number of iterations,
so a result of `none` at every fuel value is non-termination.  The loop
variable `start` is an `Int` because with `overlap > chunk_size` the Python
variable goes negative. -/

def splitLoop (text : List Char) (chunk_size overlap : Nat) :
    Nat → Int → List (List Char) → Option (List (List Char))
  | 0, _, _ => none
  | fuel + 1, start, acc =>
    if start < (text.length : Int) then
      splitLoop text chunk_size overlap fuel
        (start + ((chunk_size : Int) - (overlap : Int)))
        (acc ++ [pySlice text start (start + (chunk_size : Int))])
    else some acc

/-- `_split_text_into_chunks` run with `text.length + 1` iterations of fuel,
which is enough for every terminating execution of the loop (the loop body
runs at most once per character when the step is positive). -/
def split_text_into_chunks (text : List Char) (chunk_size : Nat := 500)
    (overlap : Nat := 100) : Option (List (List Char)) :=
  splitLoop text chunk_size overlap (text.length + 1) 0 []

/-! ## `GitHubRAG._get_relevant_context` (src/ml/graph/github_rag.py)

```python
def _get_relevant_context(self, question):
    docs = self.vector_store.similarity_search(question, k=5)
    context = "\n\n".join(doc.page_content for doc in docs)
    return context
```

The retrieved documents are abstracted as the list of their `page_content`
texts; the function joins them with a blank line and has no budget
parameter of any kind. -/

def get_relevant_context (docs : List (List Char)) : List Char :=
  List.intercalate [Char.ofNat 10, Char.ofNat 10] docs

/-! ## `EnhancedEmbeddings.embed_documents` (src/ml/graph/github/embeddings.py)

```python
def embed_documents(self, texts):
    try:
        return self.models[self.current_model].embed_documents(texts)
    except Exception as e:
        return self._fallback_embed_documents(texts, e)

def _fallback_embed_documents(self, texts, error):
    for model_name in self.fallback_chain:
        if model_name != self.current_model:
            try:
                self.current_model = model_name
                return self.models[model_name].embed_documents(texts)
            except:
                continue
    raise error
```

A model backend is a function from a model name and a batch of texts to
either an error or a batch result (the embedding vectors, left abstract in
`α`).  The mutable `self.current_model` is threaded explicitly: both
functions return the final value of `current_model` together with the
normal or exceptional outcome. -/

def fallback_chain : List String := ["openai", "codebert", "all-mpnet"]

def fallback_embed_documents {ε α : Type} (run : String → List String → Except ε α)
    (texts : List String) : List String → String → ε → String × Except ε α
  | [], cur, err => (cur, Except.error err)
  | m :: rest, cur, err =>
    if m = cur then fallback_embed_documents run texts rest cur err
    else
      match run m texts with
      | Except.ok v => (m, Except.ok v)
      | Except.error _ => fallback_embed_documents run texts rest m err

def embed_documents {ε α : Type} (run : String → List String → Except ε α)
    (cur : String) (texts : List String) : String × Except ε α :=
  match run cur texts with
  | Except.ok v => (cur, Except.ok v)
  | Except.error e => fallback_embed_documents run texts fallback_chain cur e

/-! ## `AdvancedSearcher._hybrid_search` (src/ml/graph/github/search.py)

```python
def _hybrid_search(self, query):
    semantic_results = self._semantic_search(query)
    fuzzy_results = self._fuzzy_search(query)
    regex_results = self._regex_search(query)
    results = {}
    for result in semantic_results + fuzzy_results + regex_results:
        key = result.content
        if key not in results or result.score > results[key].score:
            results[key] = result
    return sorted(results.values(), key=lambda x: x.score, reverse=True)
```

A `SearchResult` keeps the fields the merge inspects (`content`, `score`)
plus the `type` tag recording which search strategy produced it.  The
Python dict keyed by `content` is an association list in insertion order:
overwriting a key keeps its position, a new key is appended.  Python
`sorted` is a stable sort, so it coincides with `List.insertionSort`. -/

structure SearchResult where
  content : List Char
  score : ℚ
  rtype : String
deriving DecidableEq, Repr

def updateResults (acc : List SearchResult) (r : SearchResult) : List SearchResult :=
  match acc with
  | [] => [r]
  | x :: xs =>
    if x.content = r.content then (if r.score > x.score then r else x) :: xs
    else x :: updateResults xs r

def dedupeByContent (rs : List SearchResult) : List SearchResult :=
  rs.foldl updateResults []

/-- Descending comparison on scores, the ordering used by
`sorted(..., key=lambda x: x.score, reverse=True)`. -/
def scoreDesc (a b : SearchResult) : Prop := b.score ≤ a.score

instance : DecidableRel scoreDesc := fun a b => inferInstanceAs (Decidable (b.score ≤ a.score))

instance : IsTotal SearchResult scoreDesc :=
  ⟨fun a b => le_total b.score a.score⟩

instance : IsTrans SearchResult scoreDesc :=
  ⟨fun _ _ _ h1 h2 => le_trans h2 h1⟩

def hybrid_search (semantic_results fuzzy_results regex_results : List SearchResult) :
    List SearchResult :=
  List.insertionSort scoreDesc
    (dedupeByContent (semantic_results ++ fuzzy_results ++ regex_results))

/-! ## Retrieval scores

`retrieve_relevant_context` (src/ml/github_integration/views.py) converts
a FAISS L2 distance to a similarity:

```python
'score': 1 / (1 + dist)
```

`EnhancedRetriever._calculate_relevance_score`
(src/ml/graph/github/retrieval.py) starts from a cosine similarity and
adds boosts, capping only from above:

```python
score = similarity
if query.lower() in content.lower():
    score += 0.2
if "```" in content:
    score += 0.1
return min(score, 1.0)
```

Floats are modelled as rationals.  `compute_similarity` is numpy cosine
similarity `dot / (‖u‖·‖v‖)`; for one-dimensional vectors `[x]`, `[y]` the
norms are `|x|`, `|y|` and the value is exactly rational, which is all the
counterexample needs. -/

def score_of_distance (dist : ℚ) : ℚ := 1 / (1 + dist)

def compute_similarity_dim1 (x y : ℚ) : ℚ := (x * y) / (|x| * |y|)

def calculate_relevance_score (similarity : ℚ) (exact_match code_block : Bool) : ℚ :=
  min ((similarity + (if exact_match then 1/5 else 0)) + (if code_block then 1/10 else 0)) 1

/-! ## `GrokPineconeRAG.process_urls` (src/ml/scrape.py)

```python
chunks = self.chunk_text(content)
for i, (chunk, embedding) in enumerate(zip(chunks, embeddings)):
    vector_id = str(uuid.uuid4())
    vectors.append({'id': vector_id, 'values': ...,
                    'metadata': {'source': url, 'text': chunk, 'chunk_index': i}})
if vectors:
    self.index.upsert(vectors)
```

`uuid.uuid4()` is modelled as a draw from a never-repeating fresh-id
supply: the `n`-th draw overall is the id `n`.  A run that starts at draw
counter `base` assigns ids `base, base + 1, …` to its chunks; this captures
exactly the one property of `uuid4` the code relies on, that distinct draws
are distinct.  Pinecone `upsert` overwrites vectors whose id is already
present and appends the rest. -/

structure PVec where
  id : Nat
  source : String
  chunk_index : Nat
  text : List Char
deriving DecidableEq, Repr

def process_url_vectors (base : Nat) (url : String) (content : List Char) :
    Except PyError (List PVec) :=
  (chunk_text content 500 50).map (fun chunks =>
    chunks.enum.map (fun p => { id := base + p.1, source := url,
                                chunk_index := p.1, text := p.2 }))

def pinecone_upsert (index : List PVec) (vs : List PVec) : List PVec :=
  index.filter (fun v => !(vs.any (fun w => w.id == v.id))) ++ vs

/-! ## `Neo4jManager.create_node` (src/ml/graph/neo4j_manager.py)

```python
result = session.run(
    f"CREATE (n:{label} $properties) RETURN id(n) as node_id",
    properties=properties
)
```

Cypher `CREATE` unconditionally adds a fresh node — there is no `MERGE` on
a key.  The graph is the list of nodes created so far; Neo4j internal ids
are modelled as the creation index.  `create_node` returns the new graph
and the new node id. -/

structure N4Node where
  node_id : Nat
  label : String
  properties : List (String × String)
deriving DecidableEq, Repr

def create_node (g : List N4Node) (label : String)
    (properties : List (String × String)) : List N4Node × Nat :=
  (g ++ [{ node_id := g.length, label := label, properties := properties }], g.length)

/-! ## `WikipediaRAG.gather_info` (src/ml/graph/wikipedia_rag.py)

```python
def gather_info(self, query, num_articles=3):
    search_results = self.wiki.page(query)
    if not search_results.exists():
        return [{"error": f"No articles found for query: {query}"}]
    articles = [search_results.title]
    results = []
    for title in articles[:num_articles]:
        article = self.scrape_article(title)
        if "error" not in article:
            article = self.summarize_article(article)
            results.append(article)
    return results
```

The Wikipedia lookup is `page_lookup : query ↦ title of the page if it
exists`, scraping is `scrape : title ↦ error or page content`, and
summarisation is a total function on the content (on failure the code
stores an error string as the summary but still appends the record). -/

inductive GatherItem where
  | err (msg : String)
  | article (title content summary : String)
deriving DecidableEq, Repr

def gather_info (page_lookup : String → Option String)
    (scrape : String → Except String String) (summarize : String → String)
    (query : String) (num_articles : Int := 3) : List GatherItem :=
  match page_lookup query with
  | none => [GatherItem.err ("No articles found for query: " ++ query)]
  | some title =>
    let articles := [title]
    (pyTruncate articles num_articles).filterMap (fun t =>
      match scrape t with
      | Except.error _ => none
      | Except.ok content => some (GatherItem.article t content (summarize content)))

/-! ## Window lemmas -/

theorem take_min_length {α : Type} (l : List α) (n : Nat) :
    l.take (min n l.length) = l.take n := by
  rcases le_total n l.length with h | h
  · rw [min_eq_left h]
  · rw [min_eq_right h, List.take_length, List.take_of_length_le h]

theorem windowStarts_stop {len step start : Nat} (h : len ≤ start) :
    windowStarts len step start = [] := by
  unfold windowStarts
  have h1 : len - start = 0 := by omega
  rw [h1]
  have h2 : (0 + step - 1) / step = 0 := by
    rcases Nat.eq_zero_or_pos step with h0 | h0
    · simp [h0]
    · exact Nat.div_eq_of_lt (by omega)
  rw [h2]
  rfl

theorem windowStarts_step {len step start : Nat} (h1 : start < len) (h2 : 0 < step) :
    windowStarts len step start = start :: windowStarts len step (start + step) := by
  unfold windowStarts
  have key : (len - start + step - 1) / step = (len - (start + step) + step - 1) / step + 1 := by
    rcases le_total step (len - start) with hc | hc
    · have h3 : len - start + step - 1 = (len - (start + step) + step - 1) + step := by omega
      rw [h3, Nat.add_div_right _ h2]
    · have h3 : len - (start + step) = 0 := by omega
      rw [h3]
      have h4 : (0 + step - 1) / step = 0 := Nat.div_eq_of_lt (by omega)
      rw [h4]
      exact Nat.div_eq_of_lt_le (by omega) (by omega)
  rw [key, List.range_succ_eq_map]
  simp only [List.map_cons, List.map_map]
  congr 1
  · simp
  · apply List.map_congr_left
    intro a _
    simp [Function.comp]
    ring

theorem windowsFrom_stop {α : Type} {l : List α} {size step start : Nat}
    (h : l.length ≤ start) : windowsFrom l size step start = [] := by
  unfold windowsFrom
  rw [windowStarts_stop h]
  rfl

theorem windowsFrom_step {α : Type} {l : List α} {size step start : Nat}
    (h1 : start < l.length) (h2 : 0 < step) :
    windowsFrom l size step start =
      (l.drop start).take size :: windowsFrom l size step (start + step) := by
  unfold windowsFrom
  rw [windowStarts_step h1 h2]
  rfl

theorem dropJoin_cons {α : Type} (overlap : Nat) (c : List α) (cs : List (List α)) :
    dropJoin overlap (c :: cs) = c.drop overlap ++ dropJoin overlap cs := by
  simp [dropJoin]

theorem dropJoin_windowsFrom {α : Type} (l : List α) (step overlap : Nat) (hstep : 0 < step) :
    ∀ (n start : Nat), l.length - start ≤ n →
      dropJoin overlap (windowsFrom l (step + overlap) step start) = l.drop (start + overlap) := by
  intro n
  induction n with
  | zero =>
    intro start h
    rw [windowsFrom_stop (show l.length ≤ start by omega)]
    simp only [dropJoin, List.map_nil, List.flatten_nil]
    exact (@List.drop_eq_nil_of_le _ l (start + overlap) (by omega)).symm
  | succ n ih =>
    intro start h
    by_cases hs : start < l.length
    · rw [windowsFrom_step hs hstep, dropJoin_cons, ih (start + step) (by omega)]
      have e1 : step + overlap - overlap = step := by omega
      rw [List.drop_take, e1, List.drop_drop]
      have e2 : l.drop (start + step + overlap) = List.drop step (l.drop (start + overlap)) := by
        rw [List.drop_drop]
        congr 1
        omega
      rw [e2, List.take_append_drop]
    · rw [windowsFrom_stop (show l.length ≤ start by omega)]
      simp only [dropJoin, List.map_nil, List.flatten_nil]
      exact (@List.drop_eq_nil_of_le _ l (start + overlap) (by omega)).symm

/-- Round-trip property of overlapping windows: the first window followed by
the tail of every later window rebuilds the original list. -/
theorem reconstruct_windowsFrom {α : Type} (l : List α) (step overlap : Nat) (hstep : 0 < step) :
    reconstruct overlap (windowsFrom l (step + overlap) step 0) = l := by
  rcases Nat.eq_zero_or_pos l.length with h0 | h0
  · rw [windowsFrom_stop (show l.length ≤ 0 by omega)]
    simp only [reconstruct]
    exact (List.length_eq_zero.mp h0).symm
  · rw [windowsFrom_step h0 hstep]
    simp only [reconstruct]
    rw [dropJoin_windowsFrom l step overlap hstep l.length (0 + step) (by omega)]
    simp only [List.drop_zero, Nat.zero_add]
    rw [List.take_append_drop]

theorem pySlice_nat {α : Type} (l : List α) (start size : Nat) :
    pySlice l (start : Int) ((start : Int) + (size : Int)) = (l.drop start).take size := by
  have hcast : ((start : Int) + (size : Int)) = ((start + size : Nat) : Int) := by
    push_cast
    ring
  unfold pySlice pyClamp
  rw [hcast, if_neg (by omega), if_neg (by omega)]
  simp only [Int.toNat_ofNat]
  rcases le_total start l.length with hs | hs
  · rw [min_eq_left hs, List.drop_take]
    have e : min (start + size) l.length - start = min size (l.length - start) := by omega
    rw [e]
    have e2 : l.length - start = (l.drop start).length := (List.length_drop _ _).symm
    rw [e2, take_min_length]
  · have e : min start l.length = l.length := by omega
    rw [e]
    have e2 : List.drop start l = [] := List.drop_eq_nil_of_le hs
    have e3 : (l.take (min (start + size) l.length)).length ≤ l.length := by
      rw [List.length_take]
      omega
    rw [e2, List.drop_eq_nil_of_le e3]
    simp

theorem splitLoop_eq_windows {text : List Char} {chunk_size overlap : Nat}
    (hov : overlap < chunk_size) :
    ∀ (fuel start : Nat) (acc : List (List Char)),
      text.length - start < fuel →
      splitLoop text chunk_size overlap fuel (start : Int) acc =
        some (acc ++ windowsFrom text chunk_size (chunk_size - overlap) start) := by
  intro fuel
  induction fuel with
  | zero =>
    intro start acc h
    omega
  | succ fuel ih =>
    intro start acc h
    by_cases hs : start < text.length
    · rw [splitLoop, if_pos (by exact_mod_cast hs)]
      have hplus : (start : Int) + ((chunk_size : Int) - (overlap : Int)) =
          ((start + (chunk_size - overlap) : Nat) : Int) := by
        omega
      rw [hplus, pySlice_nat, ih (start + (chunk_size - overlap)) _ (by omega)]
      rw [windowsFrom_step hs (show 0 < chunk_size - overlap by omega)]
      simp
    · rw [splitLoop, if_neg (by exact_mod_cast hs),
        windowsFrom_stop (show text.length ≤ start by omega)]
      simp

theorem splitLoop_none {text : List Char} {chunk_size overlap : Nat}
    (hov : chunk_size ≤ overlap) (hne : text ≠ []) :
    ∀ (fuel : Nat) (start : Int) (acc : List (List Char)),
      start ≤ 0 → splitLoop text chunk_size overlap fuel start acc = none := by
  intro fuel
  induction fuel with
  | zero =>
    intro start acc _
    rfl
  | succ fuel ih =>
    intro start acc h
    have hlen : 0 < text.length := List.length_pos.mpr hne
    rw [splitLoop, if_pos (by omega)]
    apply ih
    omega

theorem windowsFrom_getElem {α : Type} (l : List α) (size step : Nat) (hstep : 0 < step) :
    ∀ (k start : Nat),
      (windowsFrom l size step start)[k]? =
        if start + k * step < l.length then some ((l.drop (start + k * step)).take size)
        else none := by
  intro k
  induction k with
  | zero =>
    intro start
    by_cases hs : start < l.length
    · rw [windowsFrom_step hs hstep]
      simp [hs]
    · rw [windowsFrom_stop (show l.length ≤ start by omega)]
      rw [if_neg (show ¬(start + 0 * step < l.length) by omega)]
      rfl
  | succ k ih =>
    intro start
    by_cases hs : start < l.length
    · rw [windowsFrom_step hs hstep, List.getElem?_cons_succ, ih (start + step)]
      have e : start + step + k * step = start + (k + 1) * step := by ring
      rw [e]
    · rw [windowsFrom_stop (show l.length ≤ start by omega)]
      have hge : l.length ≤ start + (k + 1) * step :=
        le_trans (by omega) (Nat.le_add_right _ _)
      simp [Nat.not_lt.mpr hge]

theorem pyRange_pos (stop : Nat) (step : Int) (h : 0 < step) :
    pyRange stop step = windowStarts stop step.toNat 0 := by
  unfold pyRange windowStarts
  rw [if_neg (by omega)]
  simp

theorem chunk_text_pos {text : List Char} {chunk_size overlap : Nat} (hov : overlap < chunk_size) :
    chunk_text text chunk_size overlap =
      Except.ok ((windowsFrom (pyWords text) chunk_size (chunk_size - overlap) 0).map joinWords) := by
  unfold chunk_text
  rw [if_neg (by omega), pyRange_pos _ _ (by omega)]
  have e : ((chunk_size : Int) - (overlap : Int)).toNat = chunk_size - overlap := by omega
  rw [e]
  unfold windowsFrom
  rw [List.map_map]
  rfl

/-! ## Chunker claims -/

/-- Claim C6 (counterexample): with `overlap = 2 > chunk_size = 1` on the
text `"a b"`, `chunk_text` does not fail at all, let alone with a
`ConfigError`: the Python `range` with a negative step is empty and the
function returns an empty chunk list successfully. -/
theorem chunk_text_no_config_error :
    chunk_text ['a', ' ', 'b'] 1 2 = Except.ok [] ∧
    (chunk_text ['a', ' ', 'b'] 1 2).isOk = true := by
  constructor
  · simp only [chunk_text]
    rw [if_neg (by omega)]
    simp only [pyRange]
    rw [if_pos (by omega)]
    rfl
  · simp only [chunk_text]
    rw [if_neg (by omega)]
    simp only [pyRange]
    rw [if_pos (by omega)]
    rfl

/-- Claim C6 (amended): `chunk_text` succeeds with an empty result when
`overlap > chunk_size` (empty negative-step range, no error), raises a
`ValueError` about a zero `range` step — not a `ConfigError` — when
`overlap = chunk_size`, and when `overlap < chunk_size` succeeds with the
`k`-th chunk being the words `k·(chunk_size−overlap), …` joined by single
blanks, a window of at most `chunk_size` words whose start advances by
`chunk_size − overlap` words, the final window possibly shorter. -/
theorem chunk_text_step_behavior (text : List Char) (chunk_size overlap : Nat) :
    (chunk_size < overlap → chunk_text text chunk_size overlap = Except.ok []) ∧
    (chunk_size = overlap → chunk_text text chunk_size overlap =
      Except.error (PyError.valueError "range() arg 3 must not be zero")) ∧
    (overlap < chunk_size → ∃ L, chunk_text text chunk_size overlap = Except.ok L ∧
      ∀ k : Nat, L[k]? =
        if k * (chunk_size - overlap) < (pyWords text).length
        then some (joinWords (((pyWords text).drop (k * (chunk_size - overlap))).take chunk_size))
        else none) := by
  refine ⟨?_, ?_, ?_⟩
  · intro h
    simp only [chunk_text]
    rw [if_neg (by omega)]
    simp only [pyRange]
    rw [if_pos (by omega)]
    rfl
  · intro h
    simp only [chunk_text]
    rw [if_pos (by omega)]
  · intro hov
    refine ⟨_, chunk_text_pos hov, ?_⟩
    intro k
    rw [List.getElem?_map, windowsFrom_getElem (pyWords text) chunk_size
      (chunk_size - overlap) (by omega) k 0]
    simp only [Nat.zero_add]
    by_cases hc : k * (chunk_size - overlap) < (pyWords text).length
    · rw [if_pos hc, if_pos hc]
      rfl
    · rw [if_neg hc, if_neg hc]
      rfl

/-- Claim C8 (confirmed): for `0 ≤ overlap < chunk_size`, chunking and then
concatenating the first chunk with everything after the first `overlap`
units of each later chunk reproduces the input exactly — at the character
level for `_split_text_into_chunks` and at the word level for
`chunk_text`. -/
theorem chunking_round_trip (text : List Char) (chunk_size overlap : Nat)
    (hov : overlap < chunk_size) :
    (∀ L, split_text_into_chunks text chunk_size overlap = some L →
      reconstruct overlap L = text) ∧
    reconstruct overlap (windowsFrom (pyWords text) chunk_size (chunk_size - overlap) 0) =
      pyWords text := by
  constructor
  · intro L hL
    have h0 : split_text_into_chunks text chunk_size overlap =
        some (windowsFrom text chunk_size (chunk_size - overlap) 0) := by
      unfold split_text_into_chunks
      have h1 := @splitLoop_eq_windows text chunk_size overlap hov (text.length + 1) 0 [] (by omega)
      simpa using h1
    rw [h0] at hL
    obtain rfl : windowsFrom text chunk_size (chunk_size - overlap) 0 = L :=
      Option.some.inj hL
    set step := chunk_size - overlap with hstep
    have hsz : chunk_size = step + overlap := by omega
    rw [hsz]
    exact reconstruct_windowsFrom text step overlap (by omega)
  · set step := chunk_size - overlap with hstep
    have hsz : chunk_size = step + overlap := by omega
    rw [hsz]
    exact reconstruct_windowsFrom (pyWords text) step overlap (by omega)

/-- Claim C8 witness: concrete round trip at text `"abc"`, window size 2,
overlap 1 (chunks `ab`, `bc`, `c`). -/
theorem chunking_round_trip_witness :
    (1 : Nat) < 2 ∧ reconstruct 1 [['a', 'b'], ['b', 'c'], ['c']] = ['a', 'b', 'c'] :=
  ⟨by decide, (chunking_round_trip ['a', 'b', 'c'] 2 1 (by decide)).1 _ (by decide)⟩

/-- Claim C9 (confirmed): the character-windowing chunker terminates exactly
when the text is empty or `overlap < chunk_size`: on empty text it stops at
once with no chunks; with `overlap < chunk_size` it stops within
`length + 1` iterations and its windows cover the whole text (the
reconstruction equals the text); and on non-empty text with
`overlap ≥ chunk_size` the loop guard stays true forever — no amount of
fuel makes `splitLoop` finish, and no error is raised on the way. -/
theorem split_text_termination (text : List Char) (chunk_size overlap : Nat) :
    (text = [] → split_text_into_chunks text chunk_size overlap = some []) ∧
    (overlap < chunk_size → ∃ L, split_text_into_chunks text chunk_size overlap = some L ∧
      reconstruct overlap L = text) ∧
    (chunk_size ≤ overlap → text ≠ [] →
      ∀ (fuel : Nat) (acc : List (List Char)),
        splitLoop text chunk_size overlap fuel 0 acc = none) := by
  refine ⟨?_, ?_, ?_⟩
  · intro h
    subst h
    rfl
  · intro hov
    refine ⟨windowsFrom text chunk_size (chunk_size - overlap) 0, ?_, ?_⟩
    · unfold split_text_into_chunks
      have h1 := @splitLoop_eq_windows text chunk_size overlap hov (text.length + 1) 0 [] (by omega)
      simpa using h1
    · set step := chunk_size - overlap with hstep
      have hsz : chunk_size = step + overlap := by omega
      rw [hsz]
      exact reconstruct_windowsFrom text step overlap (by omega)
  · intro h1 h2 fuel acc
    exact splitLoop_none h1 h2 fuel 0 acc le_rfl

/-! ## Context-merge claim -/

/-- Claim C1 (code bug): `_get_relevant_context` has no budget parameter and
simply joins every retrieved document with a blank line; with two
30-character documents the serialized context is 62 characters, exceeding a
50-character budget — the merge never enforces any budget. -/
theorem get_relevant_context_ignores_budget :
    (get_relevant_context [List.replicate 30 'a', List.replicate 30 'b']).length = 62 ∧
    50 < (get_relevant_context [List.replicate 30 'a', List.replicate 30 'b']).length := by
  constructor <;> decide

/-! ## Indexing idempotence claim -/

/-- Claim C3 (code bug): `process_urls` draws a fresh `uuid4` for every
chunk on every run, so indexing the same url with the same content twice
produces disjoint id sets (run one yields id 0, run two yields id 1 for the
single chunk of `"hello world"`), and after the second Pinecone upsert the
index holds two vectors for source `"u"` at chunk index 0 — duplicates,
not an idempotent overwrite. -/
theorem process_urls_fresh_ids :
    process_url_vectors 0 "u" ['h', 'e', 'l', 'l', 'o', ' ', 'w', 'o', 'r', 'l', 'd'] =
      Except.ok [{ id := 0, source := "u", chunk_index := 0,
                   text := ['h', 'e', 'l', 'l', 'o', ' ', 'w', 'o', 'r', 'l', 'd'] }] ∧
    process_url_vectors 1 "u" ['h', 'e', 'l', 'l', 'o', ' ', 'w', 'o', 'r', 'l', 'd'] =
      Except.ok [{ id := 1, source := "u", chunk_index := 0,
                   text := ['h', 'e', 'l', 'l', 'o', ' ', 'w', 'o', 'r', 'l', 'd'] }] ∧
    [({ id := 0, source := "u", chunk_index := 0,
        text := ['h', 'e', 'l', 'l', 'o', ' ', 'w', 'o', 'r', 'l', 'd'] } : PVec)].map PVec.id ≠
      [({ id := 1, source := "u", chunk_index := 0,
          text := ['h', 'e', 'l', 'l', 'o', ' ', 'w', 'o', 'r', 'l', 'd'] } : PVec)].map PVec.id ∧
    ((pinecone_upsert
        (pinecone_upsert []
          [{ id := 0, source := "u", chunk_index := 0,
             text := ['h', 'e', 'l', 'l', 'o', ' ', 'w', 'o', 'r', 'l', 'd'] }])
        [{ id := 1, source := "u", chunk_index := 0,
           text := ['h', 'e', 'l', 'l', 'o', ' ', 'w', 'o', 'r', 'l', 'd'] }]).filter
      (fun v => v.source == "u" && v.chunk_index == 0)).length = 2 := by
  refine ⟨by rfl, by rfl, by decide, by decide⟩

/-! ## Graph-store upsert claim -/

/-- Claim C7 (code bug): `Neo4jManager.create_node` issues a Cypher `CREATE`
with no key-based `MERGE`, so writing a node with the same natural key
(`path = "src/main.py"`) twice leaves two nodes carrying that key in the
graph, not one. -/
theorem create_node_always_creates :
    ((create_node (create_node [] "File" [("path", "src/main.py")]).1 "File"
        [("path", "src/main.py")]).1.filter
      (fun n => n.properties.contains ("path", "src/main.py"))).length = 2 ∧
    ((create_node (create_node [] "File" [("path", "src/main.py")]).1 "File"
        [("path", "src/main.py")]).1.filter
      (fun n => n.properties.contains ("path", "src/main.py"))).length ≠ 1 := by
  constructor <;> decide

/-! ## Embedder fallback claims -/

theorem fallback_ok_single_model {ε α : Type} (run : String → List String → Except ε α)
    (texts : List String) :
    ∀ (chain : List String) (cur : String) (err : ε) (v : α),
      (fallback_embed_documents run texts chain cur err).2 = Except.ok v →
      ∃ m ∈ chain, run m texts = Except.ok v := by
  intro chain
  induction chain with
  | nil =>
    intro cur err v h
    simp [fallback_embed_documents] at h
  | cons m rest ih =>
    intro cur err v h
    rw [fallback_embed_documents] at h
    by_cases hm : m = cur
    · rw [if_pos hm] at h
      obtain ⟨m2, hm2, hr⟩ := ih cur err v h
      exact ⟨m2, List.mem_cons_of_mem _ hm2, hr⟩
    · rw [if_neg hm] at h
      cases hrun : run m texts with
      | ok w =>
        rw [hrun] at h
        simp at h
        exact ⟨m, List.mem_cons_self m rest, by rw [hrun, h]⟩
      | error e =>
        rw [hrun] at h
        obtain ⟨m2, hm2, hr⟩ := ih m err v h
        exact ⟨m2, List.mem_cons_of_mem _ hm2, hr⟩

theorem fallback_all_fail {ε α : Type} (run : String → List String → Except ε α)
    (texts : List String) :
    ∀ (chain : List String) (cur : String) (err : ε),
      (∀ m ∈ chain, ∃ e, run m texts = Except.error e) →
      (fallback_embed_documents run texts chain cur err).2 = Except.error err := by
  intro chain
  induction chain with
  | nil =>
    intro cur err _
    rfl
  | cons m rest ih =>
    intro cur err hall
    rw [fallback_embed_documents]
    by_cases hm : m = cur
    · rw [if_pos hm]
      exact ih cur err (fun m2 h2 => hall m2 (List.mem_cons_of_mem _ h2))
    · rw [if_neg hm]
      obtain ⟨e, he⟩ := hall m (List.mem_cons_self m rest)
      rw [he]
      exact ih m err (fun m2 h2 => hall m2 (List.mem_cons_of_mem _ h2))

/-- Claim C2 (amended): `embed_documents` always passes the whole batch
`texts` to a single model — a successful result comes from one model applied
to the entire batch, never mixing models — and it does advance through the
fallback chain; but when every model fails it re-raises the error of the
*initial* attempt on the current model (errors thrown by the fallback models
are swallowed by the bare `except: continue`), not the last error, and no
`EmbeddingUnavailable` type exists anywhere in the code. -/
theorem embed_documents_fallback {ε α : Type} (run : String → List String → Except ε α)
    (cur : String) (texts : List String) :
    (∀ v, (embed_documents run cur texts).2 = Except.ok v →
      ∃ m, (m = cur ∨ m ∈ fallback_chain) ∧ run m texts = Except.ok v) ∧
    ((∀ m ∈ fallback_chain, ∃ e, run m texts = Except.error e) →
      ∀ e, run cur texts = Except.error e →
        (embed_documents run cur texts).2 = Except.error e) := by
  constructor
  · intro v h
    unfold embed_documents at h
    cases hrt : run cur texts with
    | ok w =>
      rw [hrt] at h
      simp at h
      exact ⟨cur, Or.inl rfl, by rw [hrt, h]⟩
    | error e =>
      rw [hrt] at h
      obtain ⟨m, hm, hr⟩ := fallback_ok_single_model run texts fallback_chain cur e v h
      exact ⟨m, Or.inr hm, hr⟩
  · intro hall e he
    unfold embed_documents
    rw [he]
    exact fallback_all_fail run texts fallback_chain cur e hall

/-- Claim C2 (counterexample): with every model failing and each model's
error labelled by the model's own name, the code surfaces the error of the
first attempt (`"openai"`), not the error of the last model tried
(`"all-mpnet"`). -/
theorem embed_documents_first_error :
    embed_documents (fun m _ => (Except.error m : Except String Unit)) "openai" ["t"] =
      ("all-mpnet", Except.error "openai") ∧
    ("openai" : String) ≠ "all-mpnet" := by
  constructor
  · rfl
  · decide

/-! ## Score claims -/

/-- Claim C5 (amended): the distance adapter's score `1 / (1 + d)` does lie
in `(0, 1]` for every non-negative distance, but `_calculate_relevance_score`
only caps its score from above (`min(score, 1.0)`): it is bounded by 1 yet
can be negative whenever the cosine similarity is, so relevance scores lie
in `[-1, 1]`, not `[0, 1]`. -/
theorem retrieval_score_bounds :
    (∀ dist : ℚ, 0 ≤ dist → 0 < score_of_distance dist ∧ score_of_distance dist ≤ 1) ∧
    (∀ (s : ℚ) (e c : Bool), -1 ≤ s → s ≤ 1 →
      -1 ≤ calculate_relevance_score s e c ∧ calculate_relevance_score s e c ≤ 1) := by
  constructor
  · intro d hd
    unfold score_of_distance
    constructor
    · exact div_pos one_pos (by linarith)
    · rw [div_le_one (by linarith)]
      linarith
  · intro s e c h1 _h2
    unfold calculate_relevance_score
    constructor
    · apply le_min
      · have hb1 : (0 : ℚ) ≤ if e then 1/5 else 0 := by split_ifs <;> norm_num
        have hb2 : (0 : ℚ) ≤ if c then 1/10 else 0 := by split_ifs <;> norm_num
        linarith
      · norm_num
    · exact min_le_right _ _

/-- Claim C5 (counterexample): the cosine similarity of the one-dimensional
vectors `[1]` and `[-1]` is `-1`, and `_calculate_relevance_score` then
returns `-1`, which is not in `[0, 1]`. -/
theorem relevance_score_negative :
    calculate_relevance_score (compute_similarity_dim1 1 (-1)) false false = -1 ∧
    ¬ (0 ≤ calculate_relevance_score (compute_similarity_dim1 1 (-1)) false false) := by
  constructor <;> norm_num [compute_similarity_dim1, calculate_relevance_score]

/-! ## Wikipedia gather claim -/

/-- Claim C10 (confirmed): `gather_info` only ever considers the single page
title produced by the Wikipedia lookup, so for every query and every value
of `num_articles` its result holds at most one successfully processed
article; and when the page does not exist it returns the one-element error
record instead of raising. -/
theorem gather_info_at_most_one (page_lookup : String → Option String)
    (scrape : String → Except String String) (summarize : String → String)
    (query : String) (num_articles : Int) :
    (gather_info page_lookup scrape summarize query num_articles).length ≤ 1 ∧
    (page_lookup query = none →
      gather_info page_lookup scrape summarize query num_articles =
        [GatherItem.err ("No articles found for query: " ++ query)]) := by
  constructor
  · cases hq : page_lookup query with
    | none => simp [gather_info, hq]
    | some t =>
      unfold gather_info
      rw [hq]
      refine le_trans (List.length_filterMap_le _ _) ?_
      unfold pyTruncate
      rw [List.length_take]
      exact le_trans (min_le_right _ _) (by simp)
  · intro hq
    simp [gather_info, hq]

/-! ## Hybrid-search merge claims -/

theorem updateResults_mem (acc : List SearchResult) (r x : SearchResult) :
    x ∈ updateResults acc r → x ∈ acc ∨ x = r := by
  induction acc with
  | nil =>
    intro h
    simp [updateResults] at h
    exact Or.inr h
  | cons a as ih =>
    intro h
    rw [updateResults] at h
    by_cases hc : a.content = r.content
    · rw [if_pos hc] at h
      rcases List.mem_cons.mp h with h1 | h1
      · by_cases hs : r.score > a.score
        · rw [if_pos hs] at h1
          exact Or.inr h1
        · rw [if_neg hs] at h1
          exact Or.inl (by rw [h1]; exact List.mem_cons_self a as)
      · exact Or.inl (List.mem_cons_of_mem _ h1)
    · rw [if_neg hc] at h
      rcases List.mem_cons.mp h with h1 | h1
      · exact Or.inl (by rw [h1]; exact List.mem_cons_self a as)
      · rcases ih h1 with h2 | h2
        · exact Or.inl (List.mem_cons_of_mem _ h2)
        · exact Or.inr h2

theorem updateResults_pairwise (r : SearchResult) :
    ∀ acc : List SearchResult, acc.Pairwise (fun a b => a.content ≠ b.content) →
      (updateResults acc r).Pairwise (fun a b => a.content ≠ b.content) := by
  intro acc
  induction acc with
  | nil =>
    intro _
    simp [updateResults]
  | cons a as ih =>
    intro h
    rw [List.pairwise_cons] at h
    obtain ⟨ha, has⟩ := h
    rw [updateResults]
    by_cases hc : a.content = r.content
    · rw [if_pos hc, List.pairwise_cons]
      have hhead : (if r.score > a.score then r else a).content = r.content := by
        split_ifs
        · rfl
        · exact hc
      refine ⟨fun b hb => ?_, has⟩
      rw [hhead, ← hc]
      exact ha b hb
    · rw [if_neg hc, List.pairwise_cons]
      refine ⟨fun b hb => ?_, ih has⟩
      rcases updateResults_mem as r b hb with h2 | h2
      · exact ha b h2
      · rw [h2]
        exact hc

theorem updateResults_dominates (acc : List SearchResult) (r : SearchResult) :
    ∃ x ∈ updateResults acc r, x.content = r.content ∧ r.score ≤ x.score := by
  induction acc with
  | nil => exact ⟨r, by simp [updateResults], rfl, le_refl _⟩
  | cons a as ih =>
    rw [updateResults]
    by_cases hc : a.content = r.content
    · rw [if_pos hc]
      by_cases hs : r.score > a.score
      · rw [if_pos hs]
        exact ⟨r, List.mem_cons_self _ _, rfl, le_refl _⟩
      · rw [if_neg hs]
        exact ⟨a, List.mem_cons_self _ _, hc, le_of_not_lt hs⟩
    · rw [if_neg hc]
      obtain ⟨x, hx, h1, h2⟩ := ih
      exact ⟨x, List.mem_cons_of_mem _ hx, h1, h2⟩

theorem updateResults_preserves (r a : SearchResult) :
    ∀ acc : List SearchResult, a ∈ acc →
      ∃ x ∈ updateResults acc r, x.content = a.content ∧ a.score ≤ x.score := by
  intro acc
  induction acc with
  | nil =>
    intro ha
    cases ha
  | cons b bs ih =>
    intro ha
    rw [updateResults]
    by_cases hc : b.content = r.content
    · rw [if_pos hc]
      rcases List.mem_cons.mp ha with h1 | h1
      · refine ⟨if r.score > b.score then r else b, List.mem_cons_self _ _, ?_, ?_⟩
        · split_ifs
          · rw [← hc, h1]
          · rw [h1]
        · split_ifs with hs
          · rw [h1]
            exact le_of_lt hs
          · rw [h1]
      · exact ⟨a, List.mem_cons_of_mem _ h1, rfl, le_refl _⟩
    · rw [if_neg hc]
      rcases List.mem_cons.mp ha with h1 | h1
      · exact ⟨b, List.mem_cons_self _ _, by rw [h1], by rw [h1]⟩
      · obtain ⟨x, hx, e1, e2⟩ := ih h1
        exact ⟨x, List.mem_cons_of_mem _ hx, e1, e2⟩

theorem pairwise_content_unique :
    ∀ l : List SearchResult, l.Pairwise (fun a b => a.content ≠ b.content) →
      ∀ x ∈ l, ∀ y ∈ l, x.content = y.content → x = y := by
  intro l
  induction l with
  | nil => simp
  | cons a as ih =>
    intro h
    rw [List.pairwise_cons] at h
    obtain ⟨ha, has⟩ := h
    intro x hx y hy hxy
    rcases List.mem_cons.mp hx with h1 | h1 <;> rcases List.mem_cons.mp hy with h2 | h2
    · rw [h1, h2]
    · exact absurd (by rw [← h1]; exact hxy) (ha y h2)
    · exact absurd (by rw [← h2]; exact hxy.symm) (ha x h1)
    · exact ih has x h1 y h2 hxy

theorem dedupe_foldl_inv :
    ∀ (rs acc : List SearchResult),
      acc.Pairwise (fun a b => a.content ≠ b.content) →
      (List.foldl updateResults acc rs).Pairwise (fun a b => a.content ≠ b.content) ∧
      (∀ x ∈ List.foldl updateResults acc rs, x ∈ acc ∨ x ∈ rs) ∧
      (∀ x ∈ List.foldl updateResults acc rs, ∀ y ∈ rs,
        y.content = x.content → y.score ≤ x.score) ∧
      (∀ a ∈ acc, ∃ x ∈ List.foldl updateResults acc rs,
        x.content = a.content ∧ a.score ≤ x.score) ∧
      (∀ y ∈ rs, ∃ x ∈ List.foldl updateResults acc rs, x.content = y.content) := by
  intro rs
  induction rs with
  | nil =>
    intro acc hacc
    exact ⟨hacc, fun x hx => Or.inl hx, by simp, fun a ha => ⟨a, ha, rfl, le_refl _⟩, by simp⟩
  | cons r rest ih =>
    intro acc hacc
    have hacc2 := updateResults_pairwise r acc hacc
    obtain ⟨q1, q2, q3, q4, q5⟩ := ih (updateResults acc r) hacc2
    simp only [List.foldl_cons]
    refine ⟨q1, ?_, ?_, ?_, ?_⟩
    · intro x hx
      rcases q2 x hx with h1 | h1
      · rcases updateResults_mem acc r x h1 with h2 | h2
        · exact Or.inl h2
        · exact Or.inr (by rw [h2]; exact List.mem_cons_self r rest)
      · exact Or.inr (List.mem_cons_of_mem _ h1)
    · intro x hx y hy hcy
      rcases List.mem_cons.mp hy with h1 | h1
      · obtain ⟨z, hz, hz1, hz2⟩ := updateResults_dominates acc r
        obtain ⟨x2, hx2, e1, e2⟩ := q4 z hz
        have hxeq : x = x2 :=
          pairwise_content_unique _ q1 x hx x2 hx2 (by rw [e1, hz1, ← h1, hcy])
        rw [h1]
        calc r.score ≤ z.score := hz2
          _ ≤ x2.score := e2
          _ = x.score := by rw [hxeq]
      · exact q3 x hx y h1 hcy
    · intro a ha
      obtain ⟨z, hz, e1, e2⟩ := updateResults_preserves r a acc ha
      obtain ⟨x, hx, f1, f2⟩ := q4 z hz
      exact ⟨x, hx, by rw [f1, e1], le_trans e2 f2⟩
    · intro y hy
      rcases List.mem_cons.mp hy with h1 | h1
      · obtain ⟨z, hz, hz1, _⟩ := updateResults_dominates acc r
        obtain ⟨x, hx, f1, _⟩ := q4 z hz
        refine ⟨x, hx, ?_⟩
        rw [f1, hz1, h1]
      · exact q5 y h1

/-- Claim C4 (amended): the merged output of `_hybrid_search` is sorted in
descending score order and holds no two entries with identical chunk text;
but among duplicates it keeps a highest-scoring occurrence — not the first
occurrence — replacing the already-stored entry whenever a later duplicate
has a strictly larger score (on score ties the earlier entry stays, which
does prefer the semantic list, concatenated first). -/
theorem hybrid_search_spec (semantic_results fuzzy_results regex_results : List SearchResult) :
    List.Sorted scoreDesc (hybrid_search semantic_results fuzzy_results regex_results) ∧
    (hybrid_search semantic_results fuzzy_results regex_results).Pairwise
      (fun a b => a.content ≠ b.content) ∧
    (∀ x ∈ hybrid_search semantic_results fuzzy_results regex_results,
      x ∈ semantic_results ++ fuzzy_results ++ regex_results ∧
      ∀ y ∈ semantic_results ++ fuzzy_results ++ regex_results,
        y.content = x.content → y.score ≤ x.score) ∧
    (∀ y ∈ semantic_results ++ fuzzy_results ++ regex_results,
      ∃ x ∈ hybrid_search semantic_results fuzzy_results regex_results,
        x.content = y.content) := by
  obtain ⟨q1, q2, q3, q4, q5⟩ :=
    dedupe_foldl_inv (semantic_results ++ fuzzy_results ++ regex_results) [] (by simp)
  have hdd : dedupeByContent (semantic_results ++ fuzzy_results ++ regex_results) =
      List.foldl updateResults [] (semantic_results ++ fuzzy_results ++ regex_results) := rfl
  have hperm : (hybrid_search semantic_results fuzzy_results regex_results).Perm
      (dedupeByContent (semantic_results ++ fuzzy_results ++ regex_results)) :=
    List.perm_insertionSort _ _
  refine ⟨List.sorted_insertionSort _ _, ?_, ?_, ?_⟩
  · rw [hdd] at hperm
    exact q1.perm hperm.symm (fun h => fun e => h e.symm)
  · intro x hx
    have hx2 : x ∈ List.foldl updateResults []
        (semantic_results ++ fuzzy_results ++ regex_results) := by
      rw [← hdd]
      exact hperm.mem_iff.mp hx
    refine ⟨?_, q3 x hx2⟩
    rcases q2 x hx2 with h | h
    · cases h
    · exact h
  · intro y hy
    obtain ⟨x, hx, e⟩ := q5 y hy
    refine ⟨x, ?_, e⟩
    apply hperm.mem_iff.mpr
    rw [hdd]
    exact hx

/-- Claim C4 (counterexample): a semantic entry and a later fuzzy entry with
byte-identical content but a higher score — the merge keeps the later,
higher-scoring fuzzy occurrence, not the first occurrence. -/
theorem hybrid_search_not_first_occurrence :
    hybrid_search [{ content := ['x'], score := 1, rtype := "semantic" }]
        [{ content := ['x'], score := 2, rtype := "fuzzy" }] [] =
      [{ content := ['x'], score := 2, rtype := "fuzzy" }] ∧
    ({ content := ['x'], score := 2, rtype := "fuzzy" } : SearchResult) ≠
      { content := ['x'], score := 1, rtype := "semantic" } := by
  constructor
  · decide
  · decide

end RagSpec
